import Mathlib

/-!
Verification of the chunked-transcriber program (`src/oa2t/app.py`).

The program's observable behaviour is embedded shallowly:

* the input audio file is abstracted to the two quantities the control flow
  reads, its on-disk byte size (`os.path.getsize(path)`) and its decoded
  duration in milliseconds (`len(audio)`);
* the transcription collaborator (`openai.audio.transcriptions.create`) is an
  explicit parameter `api : ApiCall → Except String String`, where an
  `ApiCall` records the parameter dictionary `call_api` builds and the audio
  submitted (the raw file, or an exported chunk `[start, stop)`);
* a run returns the ordered list of API calls made, the temporary chunk files
  still present in the working directory when the run ends, and either the
  final transcript or the error that aborted the run;
* the chunk-size computation
  `math.floor(max_chunk_bytes / (file_size / duration_ms))` is modelled in
  exact arithmetic: over the positive integers it equals
  `max_chunk_bytes * duration_ms / file_size` in natural-number division
  (Python evaluates it in binary floating point; the two agree on all
  concrete inputs considered here);
* the two runtime errors reachable on the chunked path (`ZeroDivisionError`
  when `duration_ms = 0`, and `ValueError` from `range(0, n, 0)` when the
  computed `max_chunk_ms` is `0`) are explicit error values, both raised
  before any API call, as in the source.
-/

namespace Oa2t

/-- Model identifier `MODEL` from the configuration section of `app.py`. -/
def MODEL : String := "gpt-4o-transcribe"

/-- Size limit `MAX_MB` (megabytes per request) from `app.py`. -/
def MAX_MB : Nat := 16

/-- Byte form of the limit, `MAX_MB * 1024 * 1024`, as computed at the
single-request test and at `max_chunk_bytes`. -/
def maxRequestBytes : Nat := MAX_MB * 1024 * 1024

/-- Fixed instructional prompt sent on every transcription call. -/
def PROMPT : String := "以繁體中文回答，每句話結束時換行"

/-- Input audio file, abstracted to its byte size and decoded duration. -/
structure AudioFile where
  file_size : Nat
  duration_ms : Nat
  deriving DecidableEq

/-- Audio submitted on one call: the raw input file (single-request path) or
the exported sub-range `audio[start:stop]` (chunked path). -/
inductive FileSource where
  | whole : FileSource
  | chunk (start stop : Nat) : FileSource
  deriving DecidableEq

/-- One call to the transcription collaborator: the `params` dictionary
assembled by `call_api`, plus which audio was submitted. -/
structure ApiCall where
  source : FileSource
  model : String
  prompt : String
  language : Option String
  deriving DecidableEq

/-- Embedding of `call_api`: model and prompt are fixed; the `language` entry
is added only when the Python condition `if language:` holds, that is when
`language` is neither `None` nor the empty string. -/
def call_api (language : Option String) (src : FileSource) : ApiCall :=
  { source := src
    model := MODEL
    prompt := PROMPT
    language :=
      match language with
      | none => none
      | some s => if s = "" then none else some s }

/-- Ways a run can abort. -/
inductive RunError where
  | zeroDivision : RunError
  | rangeZeroStep : RunError
  | api (msg : String) : RunError
  deriving DecidableEq

/-- Observable outcome of a run of `transcribe_large_file`. -/
structure RunResult where
  /-- API calls made during the run, in order. -/
  calls : List ApiCall
  /-- temporary chunk files still on disk after the run ends (the source
  removes a chunk file only after its call returns successfully). -/
  tmpFiles : List String
  /-- final transcript, or the error that aborted the run. -/
  output : Except RunError String

/-- Iteration structure of Python `range(start, stop, step)` for a positive
step, written with explicit fuel so that it is structurally recursive; the
fuel `stop - start` bounds the iteration count because `start` grows by
`step ≥ 1` each time round. -/
def pyRangeFuel (stop step : Nat) : Nat → Nat → List Nat
  | 0, _ => []
  | fuel + 1, start =>
    if 0 < step ∧ start < stop then start :: pyRangeFuel stop step fuel (start + step)
    else []

/-- Python `list(range(start, stop, step))` for `step ≥ 1` (the `step = 0`
`ValueError` is handled by the caller). -/
def pyRange (start stop step : Nat) : List Nat :=
  pyRangeFuel stop step (stop - start) start

/-- The `[start, end)` pairs traversed by the chunk loop:
`for start in range(0, duration_ms, max_chunk_ms)` with
`end = min(start + max_chunk_ms, duration_ms)`. -/
def chunkIntervals (duration_ms max_chunk_ms : Nat) : List (Nat × Nat) :=
  (pyRange 0 duration_ms max_chunk_ms).map fun s =>
    (s, min (s + max_chunk_ms) duration_ms)

/-- Decimal digit characters of `n`, most significant first. -/
def decimalChars (n : Nat) : List Char :=
  (Nat.digits 10 n).reverse.map fun d => Char.ofNat (48 + d)

/-- Decimal rendering of a natural number, as Python string formatting
produces inside the f-string. -/
def natToDecimalString (n : Nat) : String :=
  if n = 0 then "0" else (decimalChars n).asString

/-- Temporary chunk file name, `f".chunk_{start//1000}_{end//1000}.mp4"`. -/
def tmp_filename (start stop : Nat) : String :=
  ".chunk_" ++ natToDecimalString (start / 1000) ++ "_" ++
    natToDecimalString (stop / 1000) ++ ".mp4"

/-- The `max_chunk_ms` computed on the chunked path, in exact arithmetic:
`floor(max_chunk_bytes / (file_size / duration_ms))
  = max_chunk_bytes * duration_ms / file_size` over the positive integers. -/
def max_chunk_ms (f : AudioFile) : Nat :=
  maxRequestBytes * f.duration_ms / f.file_size

/-- The chunk loop of `transcribe_large_file`: for each `[start, end)` pair,
export a temporary file, call the API through the chunk's file handle, delete
the temporary file after a successful call, and stop at the first failing
call — the exception propagates and `os.remove` is not reached for the
failing chunk, so its temporary file stays on disk.  Returns the calls made,
the temporary files left on disk, and the collected transcripts or the
aborting error. -/
def chunkLoop (language : Option String) (api : ApiCall → Except String String) :
    List (Nat × Nat) → List ApiCall × List String × Except RunError (List String)
  | [] => ([], [], Except.ok [])
  | (s, e) :: rest =>
    match api (call_api language (FileSource.chunk s e)) with
    | Except.error msg =>
      ([call_api language (FileSource.chunk s e)], [tmp_filename s e],
        Except.error (RunError.api msg))
    | Except.ok text =>
      let r := chunkLoop language api rest
      (call_api language (FileSource.chunk s e) :: r.1, r.2.1,
        Except.map (fun ts => text :: ts) r.2.2)

/-- Embedding of `transcribe_large_file`.  Single-request path when the byte
size is within the limit; otherwise compute `max_chunk_ms` and run the chunk
loop, joining the transcripts with `"\n"`.  `ZeroDivisionError` (zero
duration) and the zero-step `range` `ValueError` abort before any call. -/
def transcribe_large_file (f : AudioFile) (language : Option String)
    (api : ApiCall → Except String String) : RunResult :=
  if f.file_size ≤ maxRequestBytes then
    match api (call_api language FileSource.whole) with
    | Except.error msg =>
      { calls := [call_api language FileSource.whole], tmpFiles := [],
        output := Except.error (RunError.api msg) }
    | Except.ok text =>
      { calls := [call_api language FileSource.whole], tmpFiles := [],
        output := Except.ok text }
  else if f.duration_ms = 0 then
    { calls := [], tmpFiles := [], output := Except.error RunError.zeroDivision }
  else if max_chunk_ms f = 0 then
    { calls := [], tmpFiles := [], output := Except.error RunError.rangeZeroStep }
  else
    let r := chunkLoop language api (chunkIntervals f.duration_ms (max_chunk_ms f))
    { calls := r.1, tmpFiles := r.2.1,
      output := Except.map (String.intercalate "\n") r.2.2 }

/-! Arithmetic facts about the ceiling count `(d + step - 1) / step`. -/

/-- Peeling one iteration off the ceiling count. -/
lemma ceil_count_succ (m step : Nat) (hs : 0 < step) (hm : 0 < m) :
    (m + step - 1) / step = (m - step + step - 1) / step + 1 := by
  rcases Nat.le_total m step with h | h
  · have h1 : m - step = 0 := by omega
    have h2 : m + step - 1 = (m - 1) + step := by omega
    rw [h1, h2, Nat.add_div_right _ hs, Nat.div_eq_of_lt (by omega),
      Nat.div_eq_of_lt (by omega)]
  · have h2 : m + step - 1 = (m - step + step - 1) + step := by omega
    rw [h2, Nat.add_div_right _ hs]

/-- The ceiling count times the step reaches at least `d`. -/
lemma le_ceil_count_mul (d step : Nat) (hs : 0 < step) :
    d ≤ ((d + step - 1) / step) * step := by
  obtain ⟨q, r, h1, h2, h3⟩ :
      ∃ q r, step * q + r = d + step - 1 ∧ r < step ∧ q = (d + step - 1) / step :=
    ⟨_, _, Nat.div_add_mod _ _, Nat.mod_lt _ hs, rfl⟩
  rw [← h3, Nat.mul_comm q step]
  generalize step * q = K at h1 ⊢
  omega

/-- The ceiling count times the step overshoots `d` by less than a step. -/
lemma ceil_count_mul_lt (d step : Nat) (hs : 0 < step) :
    ((d + step - 1) / step) * step < d + step := by
  have h1 : ((d + step - 1) / step) * step ≤ d + step - 1 :=
    Nat.div_mul_le_self _ _
  omega

/-- Any point is within one step of its own chunk start. -/
lemma lt_div_mul_add (t step : Nat) (hs : 0 < step) :
    t < step * (t / step) + step := by
  obtain ⟨q, r, h1, h2, h3⟩ :
      ∃ q r, step * q + r = t ∧ r < step ∧ q = t / step :=
    ⟨_, _, Nat.div_add_mod _ _, Nat.mod_lt _ hs, rfl⟩
  rw [← h3]
  generalize step * q = K at h1 ⊢
  omega

/-! Bridging `pyRange` to `List.range'`. -/

lemma pyRangeFuel_eq_range' (stop step : Nat) (hs : 0 < step) :
    ∀ fuel start, stop - start ≤ fuel →
      pyRangeFuel stop step fuel start =
        List.range' start ((stop - start + step - 1) / step) step := by
  intro fuel
  induction fuel with
  | zero =>
    intro start h
    have h0 : stop - start = 0 := by omega
    simp [pyRangeFuel, h0, Nat.div_eq_of_lt (show step - 1 < step by omega)]
  | succ n ih =>
    intro start h
    by_cases hlt : start < stop
    · rw [show pyRangeFuel stop step (n + 1) start =
          start :: pyRangeFuel stop step n (start + step) from by
            simp [pyRangeFuel, hs, hlt]]
      rw [ih (start + step) (by omega)]
      rw [show stop - (start + step) = stop - start - step from by omega]
      rw [ceil_count_succ (stop - start) step hs (by omega), List.range'_succ]
    · have h0 : stop - start = 0 := by omega
      rw [show pyRangeFuel stop step (n + 1) start = [] from by
        simp [pyRangeFuel, hlt]]
      simp [h0, Nat.div_eq_of_lt (show step - 1 < step by omega)]

lemma pyRange_eq_range' (start stop step : Nat) (hs : 0 < step) :
    pyRange start stop step =
      List.range' start ((stop - start + step - 1) / step) step :=
  pyRangeFuel_eq_range' stop step hs (stop - start) start (Nat.le_refl _)

/-- Closed form of the chunk list. -/
lemma chunkIntervals_eq (d step : Nat) (hs : 0 < step) :
    chunkIntervals d step =
      (List.range' 0 ((d + step - 1) / step) step).map fun s =>
        (s, min (s + step) d) := by
  unfold chunkIntervals
  rw [pyRange_eq_range' 0 d step hs, Nat.sub_zero]

lemma chunkIntervals_length (d step : Nat) (hs : 0 < step) :
    (chunkIntervals d step).length = (d + step - 1) / step := by
  rw [chunkIntervals_eq d step hs]
  simp

/-- Membership characterisation of the chunk list. -/
lemma chunkIntervals_mem (d step : Nat) (hs : 0 < step) (p : Nat × Nat) :
    p ∈ chunkIntervals d step ↔
      ∃ i < (d + step - 1) / step,
        p = (step * i, min (step * i + step) d) := by
  rw [chunkIntervals_eq d step hs]
  constructor
  · intro hp
    obtain ⟨s, hs', rfl⟩ := List.mem_map.mp hp
    obtain ⟨i, hi, rfl⟩ := List.mem_range'.mp hs'
    exact ⟨i, hi, by simp⟩
  · rintro ⟨i, hi, rfl⟩
    refine List.mem_map.mpr ⟨step * i, ?_, by simp⟩
    exact List.mem_range'.mpr ⟨i, hi, by simp⟩

/-- Each chunk ends where the next one starts. -/
lemma chunkIntervals_consecutive (d step : Nat) (hs : 0 < step) :
    ∀ i p q, (chunkIntervals d step)[i]? = some p →
      (chunkIntervals d step)[i + 1]? = some q → p.2 = q.1 := by
  intro i p q hp hq
  rw [chunkIntervals_eq d step hs] at hp hq
  obtain ⟨hip, hvp⟩ := List.getElem?_eq_some_iff.mp hp
  obtain ⟨hiq, hvq⟩ := List.getElem?_eq_some_iff.mp hq
  simp only [List.length_map, List.length_range'] at hip hiq
  rw [List.getElem_map, List.getElem_range'] at hvp hvq
  have hn1 : 0 < (d + step - 1) / step := by omega
  have hmul : step * ((d + step - 1) / step - 1) < d := by
    have h1 := ceil_count_mul_lt d step hs
    have h2 : step * ((d + step - 1) / step - 1) + step =
        step * ((d + step - 1) / step) := by
      rw [← Nat.mul_succ]
      congr 1
      omega
    rw [Nat.mul_comm] at h1
    omega
  have hlt : step * i + step < d + 1 := by
    have h3 : step * (i + 1) ≤ step * ((d + step - 1) / step - 1) :=
      Nat.mul_le_mul_left step (by omega)
    rw [Nat.mul_succ] at h3
    omega
  rw [← hvp, ← hvq]
  simp only [Nat.zero_add]
  rw [Nat.min_eq_left (by omega), Nat.mul_succ]

/-- The chunks cover exactly `[0, d)`. -/
lemma chunkIntervals_cover (d step : Nat) (hs : 0 < step) (t : Nat) :
    t < d ↔ ∃ p ∈ chunkIntervals d step, p.1 ≤ t ∧ t < p.2 := by
  constructor
  · intro ht
    refine ⟨(step * (t / step), min (step * (t / step) + step) d),
      (chunkIntervals_mem d step hs _).mpr ⟨t / step, ?_, rfl⟩, ?_, ?_⟩
    · have h1 : t < ((d + step - 1) / step) * step :=
        Nat.lt_of_lt_of_le ht (le_ceil_count_mul d step hs)
      exact (Nat.div_lt_iff_lt_mul hs).mpr h1
    · rw [Nat.mul_comm]
      exact Nat.div_mul_le_self t step
    · exact lt_min_iff.mpr ⟨lt_div_mul_add t step hs, ht⟩
  · rintro ⟨p, hp, h1, h2⟩
    obtain ⟨i, hi, rfl⟩ := (chunkIntervals_mem d step hs p).mp hp
    have := Nat.min_le_right (step * i + step) d
    omega

/-- Two chunks both containing a point coincide. -/
lemma chunkIntervals_disjoint (d step : Nat) (hs : 0 < step) (t : Nat)
    (p q : Nat × Nat) (hp : p ∈ chunkIntervals d step)
    (hq : q ∈ chunkIntervals d step)
    (h1 : p.1 ≤ t) (h2 : t < p.2) (h3 : q.1 ≤ t) (h4 : t < q.2) : p = q := by
  obtain ⟨i, hi, rfl⟩ := (chunkIntervals_mem d step hs p).mp hp
  obtain ⟨j, hj, rfl⟩ := (chunkIntervals_mem d step hs q).mp hq
  have key : ∀ a b : Nat, a < b → step * a ≤ t →
      t < min (step * a + step) d → step * b ≤ t → False := by
    intro a b hab ha1 ha2 hb1
    have h5 : step * (a + 1) ≤ step * b := Nat.mul_le_mul_left step (by omega)
    have h6 := Nat.min_le_left (step * a + step) d
    rw [Nat.mul_succ] at h5
    omega
  rcases Nat.lt_trichotomy i j with hij | hij | hij
  · exact absurd (key i j hij h1 h2 h3) (fun h => h)
  · rw [hij]
  · exact absurd (key j i hij h3 h4 h1) (fun h => h)

/-! Behaviour of the chunk loop. -/

/-- With a collaborator that always answers, the loop calls the API once per
chunk in order, deletes every temporary file, and collects one transcript per
chunk in order. -/
lemma chunkLoop_pure (lang : Option String) (g : ApiCall → String)
    (L : List (Nat × Nat)) :
    chunkLoop lang (fun c => Except.ok (g c)) L =
      (L.map fun p => call_api lang (FileSource.chunk p.1 p.2), [],
        Except.ok (L.map fun p => g (call_api lang (FileSource.chunk p.1 p.2)))) := by
  induction L with
  | nil => rfl
  | cons hd tl ih =>
    obtain ⟨s, e⟩ := hd
    simp [chunkLoop, ih, Except.map]

/-- The loop's outcome is a transcript list or a propagated API error; the
division and range errors cannot arise inside it. -/
lemma chunkLoop_output_cases (lang : Option String)
    (api : ApiCall → Except String String) (L : List (Nat × Nat)) :
    (∃ ts, (chunkLoop lang api L).2.2 = Except.ok ts) ∨
      ∃ msg, (chunkLoop lang api L).2.2 = Except.error (RunError.api msg) := by
  induction L with
  | nil => exact Or.inl ⟨[], rfl⟩
  | cons hd tl ih =>
    obtain ⟨s, e⟩ := hd
    cases happ : api (call_api lang (FileSource.chunk s e)) with
    | error msg => exact Or.inr ⟨msg, by simp [chunkLoop, happ]⟩
    | ok text =>
      rcases ih with ⟨ts, hts⟩ | ⟨msg, hmsg⟩
      · exact Or.inl ⟨text :: ts, by simp [chunkLoop, happ, hts, Except.map]⟩
      · exact Or.inr ⟨msg, by simp [chunkLoop, happ, hmsg, Except.map]⟩

/-- If the loop finishes with a transcript list, no temporary file is left. -/
lemma chunkLoop_ok_tmpFiles (lang : Option String)
    (api : ApiCall → Except String String) (L : List (Nat × Nat))
    (h : ∃ ts, (chunkLoop lang api L).2.2 = Except.ok ts) :
    (chunkLoop lang api L).2.1 = [] := by
  induction L with
  | nil => rfl
  | cons hd tl ih =>
    obtain ⟨s, e⟩ := hd
    obtain ⟨ts, hts⟩ := h
    cases happ : api (call_api lang (FileSource.chunk s e)) with
    | error msg => simp [chunkLoop, happ] at hts
    | ok text =>
      have hts' : ∃ ts', (chunkLoop lang api tl).2.2 = Except.ok ts' := by
        rcases chunkLoop_output_cases lang api tl with h' | ⟨msg, hmsg⟩
        · exact h'
        · exfalso
          simp [chunkLoop, happ, hmsg, Except.map] at hts
      simp [chunkLoop, happ, ih hts']

/-- Every call the loop makes was built by `call_api` on a chunk source. -/
lemma chunkLoop_calls_shape (lang : Option String)
    (api : ApiCall → Except String String) (L : List (Nat × Nat)) :
    ∀ c ∈ (chunkLoop lang api L).1, ∃ src, c = call_api lang src := by
  induction L with
  | nil => intro c hc; simp [chunkLoop] at hc
  | cons hd tl ih =>
    obtain ⟨s, e⟩ := hd
    intro c hc
    cases happ : api (call_api lang (FileSource.chunk s e)) with
    | error msg =>
      rw [show chunkLoop lang api ((s, e) :: tl) =
          ([call_api lang (FileSource.chunk s e)], [tmp_filename s e],
            Except.error (RunError.api msg)) from by simp [chunkLoop, happ]] at hc
      obtain rfl : c = call_api lang (FileSource.chunk s e) := by
        simpa using hc
      exact ⟨FileSource.chunk s e, rfl⟩
    | ok text =>
      simp only [chunkLoop, happ] at hc
      rcases List.mem_cons.mp hc with rfl | hc'
      · exact ⟨FileSource.chunk s e, rfl⟩
      · exact ih c hc'

/-- If the call for the chunk at index `i` fails and all earlier calls
succeed, the loop makes exactly the calls for chunks `0..i` and propagates
the error. -/
lemma chunkLoop_error (lang : Option String)
    (api : ApiCall → Except String String) :
    ∀ (L : List (Nat × Nat)) (i : Nat) (p : Nat × Nat) (msg : String),
      L[i]? = some p →
      api (call_api lang (FileSource.chunk p.1 p.2)) = Except.error msg →
      (∀ j q, j < i → L[j]? = some q →
        ∃ t, api (call_api lang (FileSource.chunk q.1 q.2)) = Except.ok t) →
      (chunkLoop lang api L).1 =
        (L.take (i + 1)).map (fun q => call_api lang (FileSource.chunk q.1 q.2))
      ∧ (chunkLoop lang api L).2.2 = Except.error (RunError.api msg) := by
  intro L
  induction L with
  | nil => intro i p msg hp; simp at hp
  | cons hd tl ih =>
    obtain ⟨s, e⟩ := hd
    intro i p msg hp hfail hok
    cases i with
    | zero =>
      obtain rfl : (s, e) = p := by simpa using hp
      constructor
      · simp [chunkLoop, hfail]
      · simp [chunkLoop, hfail]
    | succ i' =>
      obtain ⟨t0, ht0⟩ := hok 0 (s, e) (Nat.zero_lt_succ i') (by simp)
      have hrec := ih i' p msg (by simpa using hp) hfail
        (fun j q hj hq => hok (j + 1) q (by omega) (by simpa using hq))
      constructor
      · simp [chunkLoop, ht0, List.take_succ_cons, hrec.1]
      · simp [chunkLoop, ht0, hrec.2, Except.map]

/-! Behaviour of a whole run. -/

/-- Over-limit run with a collaborator that always answers: one call per
chunk, no leftover files, transcripts joined with a newline. -/
lemma transcribe_pure_chunked (f : AudioFile) (lang : Option String)
    (g : ApiCall → String) (hover : maxRequestBytes < f.file_size)
    (hstep : max_chunk_ms f ≠ 0) :
    transcribe_large_file f lang (fun c => Except.ok (g c)) =
      { calls := (chunkIntervals f.duration_ms (max_chunk_ms f)).map
          fun p => call_api lang (FileSource.chunk p.1 p.2),
        tmpFiles := [],
        output := Except.ok (String.intercalate "\n"
          ((chunkIntervals f.duration_ms (max_chunk_ms f)).map
            fun p => g (call_api lang (FileSource.chunk p.1 p.2)))) } := by
  have hd : f.duration_ms ≠ 0 := by
    intro h0
    apply hstep
    unfold max_chunk_ms
    rw [h0]
    simp
  unfold transcribe_large_file
  rw [if_neg (by omega), if_neg hd, if_neg hstep, chunkLoop_pure]
  simp [Except.map]

/-- Every call such a run makes was built by `call_api` with the run's
language argument. -/
lemma transcribe_calls_shape (f : AudioFile) (lang : Option String)
    (api : ApiCall → Except String String) :
    ∀ c ∈ (transcribe_large_file f lang api).calls,
      ∃ src, c = call_api lang src := by
  intro c hc
  unfold transcribe_large_file at hc
  by_cases h1 : f.file_size ≤ maxRequestBytes
  · rw [if_pos h1] at hc
    cases happ : api (call_api lang FileSource.whole) with
    | error msg =>
      rw [happ] at hc
      exact ⟨FileSource.whole, by simpa using hc⟩
    | ok text =>
      rw [happ] at hc
      exact ⟨FileSource.whole, by simpa using hc⟩
  · rw [if_neg h1] at hc
    by_cases h2 : f.duration_ms = 0
    · rw [if_pos h2] at hc
      simp at hc
    · rw [if_neg h2] at hc
      by_cases h3 : max_chunk_ms f = 0
      · rw [if_pos h3] at hc
        simp at hc
      · rw [if_neg h3] at hc
        exact chunkLoop_calls_shape lang api _ c hc

/-! Decimal rendering: injectivity and character set, needed for the
temporary-file-name claims. -/

/-- Code point of a digit character. -/
lemma char_ofNat_digit_toNat (d : Nat) (h : d < 10) :
    (Char.ofNat (48 + d)).toNat = 48 + d := by
  interval_cases d <;> decide

/-- Mapping a digit character back to its digit undoes the rendering. -/
lemma decimalChars_toDigits (n : Nat) :
    (decimalChars n).map (fun c => c.toNat - 48) = (Nat.digits 10 n).reverse := by
  unfold decimalChars
  rw [List.map_map]
  refine List.map_congr_left ?_ |>.trans (List.map_id _)
  intro d hd
  have hd10 : d < 10 :=
    Nat.digits_lt_base (by norm_num) (List.mem_reverse.mp hd)
  simp [Function.comp, char_ofNat_digit_toNat d hd10]

lemma decimalChars_injective : Function.Injective decimalChars := by
  intro a b hab
  have h2 : (Nat.digits 10 a).reverse = (Nat.digits 10 b).reverse := by
    rw [← decimalChars_toDigits a, ← decimalChars_toDigits b, hab]
  have h3 : Nat.digits 10 a = Nat.digits 10 b := by
    have := congrArg List.reverse h2
    simpa using this
  calc a = Nat.ofDigits 10 (Nat.digits 10 a) := (Nat.ofDigits_digits 10 a).symm
    _ = Nat.ofDigits 10 (Nat.digits 10 b) := by rw [h3]
    _ = b := Nat.ofDigits_digits 10 b

/-- A nonzero number never renders as the single character list `['0']`. -/
lemma decimalChars_ne_zero_chars (b : Nat) (hb : b ≠ 0) :
    decimalChars b ≠ ['0'] := by
  intro h1
  have h2 : ((['0'] : List Char).map fun c => c.toNat - 48) =
      (Nat.digits 10 b).reverse := by
    rw [← h1]
    exact decimalChars_toDigits b
  have hmap : ((['0'] : List Char).map fun c => c.toNat - 48) = [0] := by decide
  rw [hmap] at h2
  have h3 : Nat.digits 10 b = [0] := by
    have := congrArg List.reverse h2
    simpa using this.symm
  have hb0 := Nat.ofDigits_digits 10 b
  rw [h3] at hb0
  simp [Nat.ofDigits] at hb0
  exact hb hb0.symm

lemma natToDecimalString_injective : Function.Injective natToDecimalString := by
  intro a b hab
  unfold natToDecimalString at hab
  by_cases ha : a = 0 <;> by_cases hb : b = 0
  · omega
  · exfalso
    rw [if_pos ha, if_neg hb] at hab
    rw [show ("0" : String) = List.asString ['0'] from rfl] at hab
    exact decimalChars_ne_zero_chars b hb (List.asString_inj.mp hab).symm
  · exfalso
    rw [if_neg ha, if_pos hb] at hab
    rw [show ("0" : String) = List.asString ['0'] from rfl] at hab
    exact decimalChars_ne_zero_chars a ha (List.asString_inj.mp hab)
  · rw [if_neg ha, if_neg hb] at hab
    exact decimalChars_injective (List.asString_inj.mp hab)

/-- Unique parse around a separator character absent from both prefixes. -/
lemma append_sep_inj {l₁ l₂ r₁ r₂ : List Char}
    (h₁ : '_' ∉ l₁) (h₂ : '_' ∉ l₂)
    (h : l₁ ++ '_' :: r₁ = l₂ ++ '_' :: r₂) : l₁ = l₂ ∧ r₁ = r₂ := by
  induction l₁ generalizing l₂ with
  | nil =>
    cases l₂ with
    | nil => simpa using h
    | cons b bs =>
      exfalso
      simp only [List.nil_append, List.cons_append, List.cons.injEq] at h
      exact h₂ (h.1 ▸ List.mem_cons_self b bs)
  | cons a as ih =>
    cases l₂ with
    | nil =>
      exfalso
      simp only [List.nil_append, List.cons_append, List.cons.injEq] at h
      exact h₁ (h.1 ▸ List.mem_cons_self a as)
    | cons b bs =>
      simp only [List.cons_append, List.cons.injEq] at h
      obtain ⟨rfl, htl⟩ := h
      obtain ⟨hl, hr⟩ := ih (fun hm => h₁ (List.mem_cons_of_mem a hm))
        (fun hm => h₂ (List.mem_cons_of_mem a hm)) htl
      exact ⟨by rw [hl], hr⟩

/-- Rendered numbers contain no underscore. -/
lemma underscore_not_mem_natToDecimalString (n : Nat) :
    '_' ∉ (natToDecimalString n).data := by
  unfold natToDecimalString
  by_cases hn : n = 0
  · rw [if_pos hn]
    decide
  · rw [if_neg hn]
    show '_' ∉ decimalChars n
    intro hmem
    obtain ⟨d, hd, hchar⟩ := List.mem_map.mp hmem
    have hd10 : d < 10 :=
      Nat.digits_lt_base (by norm_num) (List.mem_reverse.mp hd)
    have htn := char_ofNat_digit_toNat d hd10
    rw [hchar] at htn
    have h95 : ('_' : Char).toNat = 95 := by decide
    omega

/-- File names differ whenever the start-second offsets differ. -/
lemma tmp_filename_ne (s₁ e₁ s₂ e₂ : Nat) (hne : s₁ / 1000 ≠ s₂ / 1000) :
    tmp_filename s₁ e₁ ≠ tmp_filename s₂ e₂ := by
  intro h
  have hd := congrArg String.data h
  simp only [tmp_filename, String.data_append, List.append_assoc] at hd
  simp only [List.singleton_append] at hd
  have hd2 := List.append_cancel_left hd
  have hked := append_sep_inj (underscore_not_mem_natToDecimalString (s₁ / 1000))
    (underscore_not_mem_natToDecimalString (s₂ / 1000)) hd2
  exact hne (natToDecimalString_injective (String.ext hked.1))

/-! Claim theorems. -/

/-- C1: for every input file over the 16 MiB limit with `max_chunk_ms ≥ 1`
and an always-answering collaborator, `transcribe_large_file` makes exactly
`ceil(duration_ms / max_chunk_ms)` transcription calls (written
`(duration_ms + max_chunk_ms - 1) / max_chunk_ms`), and the chunk intervals
`[start, end)` it produces are contiguous (each ends where the next starts),
exactly cover `[0, duration_ms)`, and are non-overlapping (no point lies in
two distinct chunks). -/
theorem chunk_count_and_tiling (f : AudioFile) (lang : Option String)
    (g : ApiCall → String) (hover : maxRequestBytes < f.file_size)
    (hstep : 1 ≤ max_chunk_ms f) :
    (transcribe_large_file f lang (fun c => Except.ok (g c))).calls.length =
        (f.duration_ms + max_chunk_ms f - 1) / max_chunk_ms f
    ∧ (∀ i p q, (chunkIntervals f.duration_ms (max_chunk_ms f))[i]? = some p →
        (chunkIntervals f.duration_ms (max_chunk_ms f))[i + 1]? = some q →
        p.2 = q.1)
    ∧ (∀ t, t < f.duration_ms ↔
        ∃ p ∈ chunkIntervals f.duration_ms (max_chunk_ms f), p.1 ≤ t ∧ t < p.2)
    ∧ (∀ t p q, p ∈ chunkIntervals f.duration_ms (max_chunk_ms f) →
        q ∈ chunkIntervals f.duration_ms (max_chunk_ms f) →
        p.1 ≤ t → t < p.2 → q.1 ≤ t → t < q.2 → p = q) := by
  have hs : 0 < max_chunk_ms f := hstep
  refine ⟨?_, chunkIntervals_consecutive _ _ hs,
    chunkIntervals_cover _ _ hs, chunkIntervals_disjoint _ _ hs⟩
  rw [transcribe_pure_chunked f lang g hover (by omega)]
  simp [chunkIntervals_length _ _ hs]

/-- Witness for C1 at a 16 MiB + 1 byte file of 2 ms, where
`max_chunk_ms = 1` and the run makes `ceil(2 / 1) = 2` calls. -/
theorem chunk_count_and_tiling_witness :
    maxRequestBytes < 16777217 ∧ 1 ≤ max_chunk_ms ⟨16777217, 2⟩ ∧
    (transcribe_large_file ⟨16777217, 2⟩ none
        (fun _ => Except.ok "")).calls.length =
      (2 + max_chunk_ms ⟨16777217, 2⟩ - 1) / max_chunk_ms ⟨16777217, 2⟩ :=
  ⟨by decide, by decide,
    (chunk_count_and_tiling ⟨16777217, 2⟩ none (fun _ => "")
      (by decide) (by decide)).1⟩

/-- C2: for every input file at or under the 16 MiB limit, the run makes
exactly one call, on the raw file, and returns that call's text response
unchanged. -/
theorem small_file_single_call (f : AudioFile) (lang : Option String)
    (api : ApiCall → Except String String)
    (hsize : f.file_size ≤ maxRequestBytes) :
    (transcribe_large_file f lang api).calls = [call_api lang FileSource.whole]
    ∧ ∀ t, api (call_api lang FileSource.whole) = Except.ok t →
        (transcribe_large_file f lang api).output = Except.ok t := by
  unfold transcribe_large_file
  rw [if_pos hsize]
  cases happ : api (call_api lang FileSource.whole) with
  | error msg =>
    refine ⟨rfl, ?_⟩
    intro t ht
    simp at ht
  | ok t0 =>
    refine ⟨rfl, ?_⟩
    intro t ht
    simpa using ht

/-- Witness for C2 at an empty file. -/
theorem small_file_single_call_witness :
    (0 : Nat) ≤ maxRequestBytes ∧
    (transcribe_large_file ⟨0, 0⟩ none (fun _ => Except.ok "hi")).calls =
      [call_api none FileSource.whole] ∧
    (transcribe_large_file ⟨0, 0⟩ none (fun _ => Except.ok "hi")).output =
      Except.ok "hi" :=
  ⟨by decide,
    (small_file_single_call ⟨0, 0⟩ none (fun _ => Except.ok "hi") (by decide)).1,
    (small_file_single_call ⟨0, 0⟩ none (fun _ => Except.ok "hi") (by decide)).2
      "hi" rfl⟩

/-- C3: on the chunked path with an always-answering collaborator, the final
transcript is the per-chunk transcripts joined with a newline, and the chunk
list is in strictly ascending start order, whatever the number of chunks. -/
theorem transcript_join_order (f : AudioFile) (lang : Option String)
    (g : ApiCall → String) (hover : maxRequestBytes < f.file_size)
    (hstep : 1 ≤ max_chunk_ms f) :
    (transcribe_large_file f lang (fun c => Except.ok (g c))).output =
      Except.ok (String.intercalate "\n"
        ((chunkIntervals f.duration_ms (max_chunk_ms f)).map
          fun p => g (call_api lang (FileSource.chunk p.1 p.2))))
    ∧ ((chunkIntervals f.duration_ms (max_chunk_ms f)).map Prod.fst).Pairwise
        (· < ·) := by
  constructor
  · rw [transcribe_pure_chunked f lang g hover (by omega)]
  · rw [chunkIntervals_eq _ _ hstep, List.map_map, List.pairwise_map]
    exact List.pairwise_lt_range' 0 _ _ hstep

/-- Witness for C3 at the two-chunk input of the C1 witness. -/
theorem transcript_join_order_witness :
    maxRequestBytes < 16777217 ∧ 1 ≤ max_chunk_ms ⟨16777217, 2⟩ ∧
    (transcribe_large_file ⟨16777217, 2⟩ none
        (fun _ => Except.ok "t")).output =
      Except.ok (String.intercalate "\n"
        ((chunkIntervals 2 (max_chunk_ms ⟨16777217, 2⟩)).map fun _ => "t")) :=
  ⟨by decide, by decide,
    (transcript_join_order ⟨16777217, 2⟩ none (fun _ => "t")
      (by decide) (by decide)).1⟩

/-- C4 as stated is false: on a failing transcription call the current
chunk's temporary file is not removed.  Concretely, a 16 MiB + 1 byte file of
2 ms is split with `max_chunk_ms = 1`, and a collaborator that fails at once
leaves `.chunk_0_0.mp4` in the working directory after the run. -/
theorem tmp_file_left_on_failure :
    (transcribe_large_file ⟨16777217, 2⟩ none
        (fun _ => Except.error "network down")).tmpFiles =
      [".chunk_0_0.mp4"] ∧
    (transcribe_large_file ⟨16777217, 2⟩ none
        (fun _ => Except.error "network down")).tmpFiles ≠ [] := by
  decide

/-- C4 amended: every temporary chunk file is absent after a run that ends
successfully; on a failing transcription call the failing chunk's temporary
file remains (and later chunks' files are never created). -/
theorem tmp_files_absent_on_success (f : AudioFile) (lang : Option String)
    (api : ApiCall → Except String String)
    (h : ∃ t, (transcribe_large_file f lang api).output = Except.ok t) :
    (transcribe_large_file f lang api).tmpFiles = [] := by
  unfold transcribe_large_file at h ⊢
  by_cases h1 : f.file_size ≤ maxRequestBytes
  · rw [if_pos h1] at h ⊢
    cases happ : api (call_api lang FileSource.whole) with
    | error msg => rfl
    | ok text => rfl
  · rw [if_neg h1] at h ⊢
    by_cases h2 : f.duration_ms = 0
    · rw [if_pos h2]
    · rw [if_neg h2] at h ⊢
      by_cases h3 : max_chunk_ms f = 0
      · rw [if_pos h3]
      · rw [if_neg h3] at h ⊢
        apply chunkLoop_ok_tmpFiles
        obtain ⟨t, ht⟩ := h
        rcases chunkLoop_output_cases lang api
            (chunkIntervals f.duration_ms (max_chunk_ms f)) with h' | ⟨msg, hmsg⟩
        · exact h'
        · exfalso
          simp [hmsg, Except.map] at ht

/-- Witness for the amended C4 at a small file with a successful call. -/
theorem tmp_files_absent_on_success_witness :
    (∃ t, (transcribe_large_file ⟨0, 0⟩ none
        (fun _ => Except.ok "hi")).output = Except.ok t) ∧
    (transcribe_large_file ⟨0, 0⟩ none (fun _ => Except.ok "hi")).tmpFiles = [] :=
  ⟨⟨"hi", rfl⟩,
    tmp_files_absent_on_success ⟨0, 0⟩ none (fun _ => Except.ok "hi") ⟨"hi", rfl⟩⟩

/-- C5 as stated is false: for a 40 MiB file (41943040 bytes) with a 16 MiB
limit and 600000 ms duration, the formula
`floor(16*1024*1024 / (40*1024*1024 / 600000))` gives 240000, not 245760, so
the chunk boundaries are not `[0,245760), [245760,491520), [491520,600000)`. -/
theorem numeric_example_chunks_ne_spec :
    max_chunk_ms ⟨41943040, 600000⟩ ≠ 245760 ∧
    chunkIntervals 600000 (max_chunk_ms ⟨41943040, 600000⟩) ≠
      [(0, 245760), (245760, 491520), (491520, 600000)] := by
  have h240 : max_chunk_ms ⟨41943040, 600000⟩ = 240000 := by decide
  have hceil : (600000 + 240000 - 1) / 240000 = 3 := by decide
  have hchunks : chunkIntervals 600000 240000 =
      [(0, 240000), (240000, 480000), (480000, 600000)] := by
    rw [chunkIntervals_eq 600000 240000 (by decide), hceil]
    decide
  rw [h240, hchunks]
  decide

/-- C5 amended: the formula gives `max_chunk_ms = 240000`, and the run
produces exactly 3 chunks `[0,240000)`, `[240000,480000)`,
`[480000,600000)`. -/
theorem numeric_example_chunks_correct :
    max_chunk_ms ⟨41943040, 600000⟩ = 240000 ∧
    chunkIntervals 600000 240000 =
      [(0, 240000), (240000, 480000), (480000, 600000)] ∧
    (transcribe_large_file ⟨41943040, 600000⟩ none
        (fun _ => Except.ok "x")).calls.length = 3 := by
  have h240 : max_chunk_ms ⟨41943040, 600000⟩ = 240000 := by decide
  have hceil : (600000 + 240000 - 1) / 240000 = 3 := by decide
  have hchunks : chunkIntervals 600000 240000 =
      [(0, 240000), (240000, 480000), (480000, 600000)] := by
    rw [chunkIntervals_eq 600000 240000 (by decide), hceil]
    decide
  refine ⟨h240, hchunks, ?_⟩
  rw [transcribe_pure_chunked ⟨41943040, 600000⟩ none (fun _ => "x")
    (by decide) (by decide)]
  show ((chunkIntervals 600000 (max_chunk_ms ⟨41943040, 600000⟩)).map _).length = 3
  rw [h240, hchunks]
  rfl

/-- C6: every call of a run carries exactly the language argument passed to
`transcribe_large_file`: a (nonempty) language code is forwarded on the
single call and on every per-chunk call, and omitting the language (`none`)
leaves it out of every call.  (Python's `if language:` also drops an empty
string, which is not a language code.) -/
theorem language_passthrough (f : AudioFile) (lang : Option String)
    (api : ApiCall → Except String String) (hlang : lang ≠ some "") :
    ∀ c ∈ (transcribe_large_file f lang api).calls, c.language = lang := by
  intro c hc
  obtain ⟨src, rfl⟩ := transcribe_calls_shape f lang api c hc
  cases lang with
  | none => rfl
  | some s =>
    have hs : s ≠ "" := fun h => hlang (by rw [h])
    simp [call_api, hs]

/-- Witness for C6: with language `"en"`, the single call of a small-file run
carries `"en"`. -/
theorem language_passthrough_witness :
    (some "en" ≠ some "") ∧
    ∀ c ∈ (transcribe_large_file ⟨0, 0⟩ (some "en")
        (fun _ => Except.ok "hi")).calls, c.language = some "en" :=
  ⟨by decide,
    language_passthrough ⟨0, 0⟩ (some "en") (fun _ => Except.ok "hi") (by decide)⟩

/-- C7: on the chunked path, if the call for the chunk at index `i` raises
while all earlier calls succeed, the run's calls are exactly those for chunks
`0..i` — so no chunk after `i` is transcribed and the failed chunk is not
retried — and the error propagates with no partial result. -/
theorem error_aborts_chunk_loop (f : AudioFile) (lang : Option String)
    (api : ApiCall → Except String String) (i : Nat) (p : Nat × Nat)
    (msg : String) (hover : maxRequestBytes < f.file_size)
    (hstep : 1 ≤ max_chunk_ms f)
    (hp : (chunkIntervals f.duration_ms (max_chunk_ms f))[i]? = some p)
    (hfail : api (call_api lang (FileSource.chunk p.1 p.2)) = Except.error msg)
    (hok : ∀ j q, j < i →
      (chunkIntervals f.duration_ms (max_chunk_ms f))[j]? = some q →
      ∃ t, api (call_api lang (FileSource.chunk q.1 q.2)) = Except.ok t) :
    (transcribe_large_file f lang api).calls =
      ((chunkIntervals f.duration_ms (max_chunk_ms f)).take (i + 1)).map
        (fun q => call_api lang (FileSource.chunk q.1 q.2))
    ∧ (transcribe_large_file f lang api).output =
        Except.error (RunError.api msg) := by
  have hd : f.duration_ms ≠ 0 := by
    intro h0
    have hz : max_chunk_ms f = 0 := by
      unfold max_chunk_ms
      rw [h0]
      simp
    omega
  have hloop := chunkLoop_error lang api
    (chunkIntervals f.duration_ms (max_chunk_ms f)) i p msg hp hfail hok
  unfold transcribe_large_file
  rw [if_neg (by omega), if_neg hd, if_neg (by omega)]
  exact ⟨hloop.1, by simp [hloop.2, Except.map]⟩

/-- Collaborator used by the C7 witness: fails on the first chunk. -/
def failingApi : ApiCall → Except String String :=
  fun c => if c.source = FileSource.chunk 0 1 then Except.error "boom"
    else Except.ok "ok"

/-- Witness for C7: failing the first of two chunks stops the run after one
call. -/
theorem error_aborts_chunk_loop_witness :
    failingApi (call_api none (FileSource.chunk 0 1)) = Except.error "boom" ∧
    (transcribe_large_file ⟨16777217, 2⟩ none failingApi).calls =
      ((chunkIntervals 2 (max_chunk_ms ⟨16777217, 2⟩)).take 1).map
        (fun q => call_api none (FileSource.chunk q.1 q.2)) ∧
    (transcribe_large_file ⟨16777217, 2⟩ none failingApi).output =
      Except.error (RunError.api "boom") :=
  ⟨rfl,
    (error_aborts_chunk_loop ⟨16777217, 2⟩ none failingApi 0 (0, 1) "boom"
      (by decide) (by decide) (by decide) rfl
      (fun j q hj _ => absurd hj (by omega))).1,
    (error_aborts_chunk_loop ⟨16777217, 2⟩ none failingApi 0 (0, 1) "boom"
      (by decide) (by decide) (by decide) rfl
      (fun j q hj _ => absurd hj (by omega))).2⟩

/-- C8 as stated is false: a run with `max_chunk_ms < 1000` can give several
chunks of the same run the same temporary file name.  Concretely, a
33554433-byte (over-limit) file of 3 ms gets `max_chunk_ms = 1` and three
chunks, all named `.chunk_0_0.mp4`. -/
theorem tmp_filenames_collide :
    maxRequestBytes < 33554433 ∧
    max_chunk_ms ⟨33554433, 3⟩ = 1 ∧
    ((chunkIntervals 3 1).map fun p => tmp_filename p.1 p.2) =
      [".chunk_0_0.mp4", ".chunk_0_0.mp4", ".chunk_0_0.mp4"] ∧
    ¬ ((chunkIntervals 3 1).map fun p => tmp_filename p.1 p.2).Nodup := by
  decide

/-- C8 amended: the temporary file names of one run are pairwise distinct
whenever `max_chunk_ms ≥ 1000`, i.e. whenever each chunk spans at least one
full second, so the start-second offsets in the names strictly increase. -/
theorem tmp_filenames_distinct_of_full_second_chunks (d step : Nat)
    (h : 1000 ≤ step) :
    ((chunkIntervals d step).map fun p => tmp_filename p.1 p.2).Nodup := by
  have key : ∀ a b : Nat, a < b → (step * a) / 1000 < (step * b) / 1000 := by
    intro a b hab
    have h1 : step * a + 1000 ≤ step * b := by
      have h2 : step * (a + 1) ≤ step * b := Nat.mul_le_mul_left step (by omega)
      rw [Nat.mul_succ] at h2
      omega
    have h3 : (step * a + 1000) / 1000 ≤ step * b / 1000 :=
      Nat.div_le_div_right h1
    rw [Nat.add_div_right _ (by norm_num)] at h3
    omega
  rw [chunkIntervals_eq d step (by omega), List.map_map]
  apply List.Nodup.map_on ?_ (List.nodup_range' 0 _ step (by omega))
  intro x hx y hy hxy
  by_contra hne
  obtain ⟨i, hi, rfl⟩ := List.mem_range'.mp hx
  obtain ⟨j, hj, rfl⟩ := List.mem_range'.mp hy
  simp only [Function.comp_apply, Nat.zero_add] at hxy hne
  refine absurd hxy (tmp_filename_ne _ _ _ _ ?_)
  have hij : i ≠ j := fun hh => hne (by rw [hh])
  rcases Nat.lt_or_ge i j with hlt | hge
  · exact Nat.ne_of_lt (key i j hlt)
  · exact (Nat.ne_of_lt (key j i (by omega))).symm

/-- Witness for the amended C8: two one-second chunks get distinct names. -/
theorem tmp_filenames_distinct_witness :
    (1000 : Nat) ≤ 1000 ∧
    ((chunkIntervals 2000 1000).map fun p => tmp_filename p.1 p.2).Nodup :=
  ⟨by decide, tmp_filenames_distinct_of_full_second_chunks 2000 1000 (by decide)⟩

/-- C9: on an over-limit file the run aborts before any call with the
division error when the duration is zero, and with the zero-step range error
when the computed `max_chunk_ms` is zero; the chunked path avoids both
errors exactly when `duration_ms > 0` and
`16*1024*1024 * duration_ms / file_size ≥ 1`. -/
theorem chunked_path_preconditions (f : AudioFile) (lang : Option String)
    (api : ApiCall → Except String String)
    (hover : maxRequestBytes < f.file_size) :
    (f.duration_ms = 0 →
      transcribe_large_file f lang api =
        { calls := [], tmpFiles := [],
          output := Except.error RunError.zeroDivision })
    ∧ (f.duration_ms ≠ 0 → max_chunk_ms f = 0 →
      transcribe_large_file f lang api =
        { calls := [], tmpFiles := [],
          output := Except.error RunError.rangeZeroStep })
    ∧ (((transcribe_large_file f lang api).output ≠
          Except.error RunError.zeroDivision ∧
        (transcribe_large_file f lang api).output ≠
          Except.error RunError.rangeZeroStep) ↔
      (0 < f.duration_ms ∧ 1 ≤ max_chunk_ms f)) := by
  have hns : ¬ f.file_size ≤ maxRequestBytes := by omega
  have hzero : f.duration_ms = 0 →
      transcribe_large_file f lang api =
        { calls := [], tmpFiles := [],
          output := Except.error RunError.zeroDivision } := by
    intro h0
    unfold transcribe_large_file
    rw [if_neg hns, if_pos h0]
  have hrange : f.duration_ms ≠ 0 → max_chunk_ms f = 0 →
      transcribe_large_file f lang api =
        { calls := [], tmpFiles := [],
          output := Except.error RunError.rangeZeroStep } := by
    intro h0 h1
    unfold transcribe_large_file
    rw [if_neg hns, if_neg h0, if_pos h1]
  refine ⟨hzero, hrange, ?_, ?_⟩
  · rintro ⟨ha, hb⟩
    by_cases h0 : f.duration_ms = 0
    · exact absurd (by rw [hzero h0]) ha
    · by_cases h1 : max_chunk_ms f = 0
      · exact absurd (by rw [hrange h0 h1]) hb
      · exact ⟨by omega, by omega⟩
  · rintro ⟨h0, h1⟩
    unfold transcribe_large_file
    rw [if_neg hns, if_neg (by omega), if_neg (by omega)]
    rcases chunkLoop_output_cases lang api
        (chunkIntervals f.duration_ms (max_chunk_ms f)) with ⟨ts, hts⟩ |
        ⟨msg, hmsg⟩
    · constructor <;> simp [hts, Except.map]
    · constructor <;> simp [hmsg, Except.map]

/-- Witness for C9: an over-limit file of zero duration aborts with the
division error before any call. -/
theorem chunked_path_preconditions_witness :
    maxRequestBytes < 16777217 ∧
    transcribe_large_file ⟨16777217, 0⟩ none (fun _ => Except.ok "") =
      { calls := [], tmpFiles := [],
        output := Except.error RunError.zeroDivision } :=
  ⟨by decide,
    (chunked_path_preconditions ⟨16777217, 0⟩ none (fun _ => Except.ok "")
      (by decide)).1 rfl⟩

/-- C10: on an over-limit file with `max_chunk_ms ≥ 1`, the chunk duration is
strictly smaller than the total duration, so the run produces at least two
chunks and (with an always-answering collaborator) makes at least two
transcription calls. -/
theorem at_least_two_chunks (f : AudioFile) (lang : Option String)
    (g : ApiCall → String) (hover : maxRequestBytes < f.file_size)
    (hstep : 1 ≤ max_chunk_ms f) :
    max_chunk_ms f < f.duration_ms
    ∧ 2 ≤ (chunkIntervals f.duration_ms (max_chunk_ms f)).length
    ∧ 2 ≤ (transcribe_large_file f lang
        (fun c => Except.ok (g c))).calls.length := by
  have hsize : 0 < f.file_size := by omega
  have hd : 0 < f.duration_ms := by
    by_contra h0
    have hdd : f.duration_ms = 0 := by omega
    have hz : max_chunk_ms f = 0 := by
      unfold max_chunk_ms
      rw [hdd]
      simp
    omega
  have hlt : max_chunk_ms f < f.duration_ms := by
    unfold max_chunk_ms
    rw [Nat.div_lt_iff_lt_mul hsize]
    calc maxRequestBytes * f.duration_ms
        = f.duration_ms * maxRequestBytes := Nat.mul_comm _ _
      _ < f.duration_ms * f.file_size := by
          exact mul_lt_mul_of_pos_left hover hd
  have hlen : 2 ≤ (chunkIntervals f.duration_ms (max_chunk_ms f)).length := by
    rw [chunkIntervals_length _ _ hstep, Nat.le_div_iff_mul_le hstep]
    omega
  refine ⟨hlt, hlen, ?_⟩
  rw [transcribe_pure_chunked f lang g hover (by omega)]
  simpa using hlen

/-- Witness for C10 at the two-chunk input of the C1 witness. -/
theorem at_least_two_chunks_witness :
    maxRequestBytes < 16777217 ∧ 1 ≤ max_chunk_ms ⟨16777217, 2⟩ ∧
    max_chunk_ms ⟨16777217, 2⟩ < 2 :=
  ⟨by decide, by decide,
    (at_least_two_chunks ⟨16777217, 2⟩ none (fun _ => "")
      (by decide) (by decide)).1⟩

end Oa2t
